import Mathlib

/-!
Verification development for the stereo 3D human-pose baseline
(src/baseline.py).  The geometric helpers that baseline.py imports from
tools/common.py and tools/utils.py (project_3d_to_2d, get_projection_matrix,
triangulation, get_max_preds) are not part of the sources; following the
specification those operations are modelled here from the spec text, while
everything that lives in src/baseline.py (the inference post-processing, the
2D plotting, the estimate orchestration) is translated from the source.
-/

namespace Baseline

/-! ## Definitions: heatmap decoding -/

/-- Modelled from the spec: the row-major first-occurrence argmax used by
get_max_preds of tools/utils.py (absent from the sources).  Given the flat
row-major list of heatmap values it returns the index of the first global
maximum together with the maximal value, matching numpy argmax semantics:
on a tie the earliest index wins. -/
def argmax : List ℚ → ℕ × ℚ
  | [] => (0, 0)
  | [x] => (0, x)
  | x :: y :: xs =>
    if x < (argmax (y :: xs)).2 then ((argmax (y :: xs)).1 + 1, (argmax (y :: xs)).2)
    else (0, x)

/-- Modelled from the spec: get_max_preds of tools/utils.py (absent from the
sources) on one flat row-major heatmap of width W.  It returns the location
of the first global maximum as (column, row) = (idx mod W, idx div W)
together with the peak value recorded as the confidence. -/
def get_max_preds (W : ℕ) (flat : List ℚ) : (ℕ × ℕ) × ℚ :=
  (((argmax flat).1 % W, (argmax flat).1 / W), (argmax flat).2)

/-- Keypoint post-processing performed by BaseLine.inference in
src/baseline.py (lines 142 to 144): the decoded heatmap coordinates are
multiplied by the stride 4 and cast to numpy uint8, which reduces each
coordinate mod 256.  The confidence returned by the decoder is dropped
there. -/
def inference_post (W : ℕ) (flat : List ℚ) : ℕ × ℕ :=
  (((get_max_preds W flat).1.1 * 4) % 256, ((get_max_preds W flat).1.2 * 4) % 256)

/-! ## Definitions: projection geometry -/

/-- Homogeneous lift of a 3D point: append the coordinate 1. -/
def homog {F : Type} [Field F] (X : Fin 3 → F) : Fin 4 → F :=
  ![X 0, X 1, X 2, 1]

/-- Modelled from the spec: get_projection_matrix of tools/common.py (absent
from the sources) builds the 3 by 4 projection operator P = K * [R | t]. -/
def get_projection_matrix {F : Type} [Field F] (K R : Matrix (Fin 3) (Fin 3) F)
    (t : Fin 3 → F) : Matrix (Fin 3) (Fin 4) F :=
  K * !![R 0 0, R 0 1, R 0 2, t 0;
         R 1 0, R 1 1, R 1 2, t 1;
         R 2 0, R 2 1, R 2 2, t 2]

/-- Modelled from the spec: the per-point core of project_3d_to_2d of
tools/common.py (absent from the sources): lift the point, apply P to get
(x, y, w), and return (x / w, y / w). -/
def projectPt {F : Type} [Field F] (P : Matrix (Fin 3) (Fin 4) F)
    (X : Fin 3 → F) : F × F :=
  (P.mulVec (homog X) 0 / P.mulVec (homog X) 2,
   P.mulVec (homog X) 1 / P.mulVec (homog X) 2)

/-- Modelled from the spec: project_3d_to_2d of tools/common.py (absent from
the sources) maps the N given 3D points through P = K * [R | t]. -/
def project_3d_to_2d {F : Type} [Field F] (pose : List (Fin 3 → F))
    (K R : Matrix (Fin 3) (Fin 3) F) (t : Fin 3 → F) : List (F × F) :=
  pose.map (fun X => projectPt (get_projection_matrix K R t) X)

/-- Modelled from the spec: the 4 by 4 homogeneous linear system A of the
direct linear transform built by triangulation of tools/common.py (absent
from the sources) from the two projection operators and the two observed
pixel coordinates: rows u * P_row3 - P_row1 and v * P_row3 - P_row2 of each
view. -/
def dlt {F : Type} [Field F] (PL PR : Matrix (Fin 3) (Fin 4) F)
    (uL vL uR vR : F) : Matrix (Fin 4) (Fin 4) F :=
  Matrix.of
    ![fun j => uL * PL 2 j - PL 0 j,
      fun j => vL * PL 2 j - PL 1 j,
      fun j => uR * PR 2 j - PR 0 j,
      fun j => vR * PR 2 j - PR 1 j]

/-- The DLT system obtained by projecting the 3D point X into both views and
feeding the two projections back to the triangulation. -/
def dltOfPoint {F : Type} [Field F] (PL PR : Matrix (Fin 3) (Fin 4) F)
    (X : Fin 3 → F) : Matrix (Fin 4) (Fin 4) F :=
  dlt PL PR (projectPt PL X).1 (projectPt PL X).2 (projectPt PR X).1 (projectPt PR X).2

/-- Dequantization of a homogeneous 4-vector: divide the first three
components by the fourth. -/
def dequant {F : Type} [Field F] (Y : Fin 4 → F) : Fin 3 → F :=
  fun i => Y i.castSucc / Y (Fin.last 3)

/-- Leading 3 by 3 block of the DLT system, used to witness that the system
has rank 3 so that its null space is one-dimensional. -/
def minor3 {F : Type} [Field F] (A : Matrix (Fin 4) (Fin 4) F) :
    Matrix (Fin 3) (Fin 3) F :=
  !![A 0 0, A 0 1, A 0 2;
     A 1 0, A 1 1, A 1 2;
     A 2 0, A 2 1, A 2 2]

/-- Last column of the first three rows of the DLT system. -/
def col3 {F : Type} [Field F] (A : Matrix (Fin 4) (Fin 4) F) : Fin 3 → F :=
  ![A 0 3, A 1 3, A 2 3]

/-! ## Definitions: camera metadata and the source functions of baseline.py -/

/-- One camera record of the frame metadata (intrinsics, rotation,
translation), as read by project in src/baseline.py lines 24 to 30. -/
structure Cam where
  intrinsics : Matrix (Fin 3) (Fin 3) ℚ
  rotation : Matrix (Fin 3) (Fin 3) ℚ
  translation : Fin 3 → ℚ

/-- Frame metadata: the two camera records and the ground-truth 3D pose,
as consumed by project and BaseLine.estimate in src/baseline.py. -/
structure MetaData where
  cam_left : Cam
  cam_right : Cam
  pose_3d : List (Fin 3 → ℚ)

/-- The function project of src/baseline.py (lines 23 to 36): project the
ground-truth 3D pose into both views. -/
def project (m : MetaData) : List (ℚ × ℚ) × List (ℚ × ℚ) :=
  (project_3d_to_2d m.pose_3d m.cam_left.intrinsics m.cam_left.rotation
      m.cam_left.translation,
   project_3d_to_2d m.pose_3d m.cam_right.intrinsics m.cam_right.rotation
      m.cam_right.translation)

/-! ## Definitions: image plotting (src/baseline.py lines 97 to 110)

Images are modelled as total pixel maps; in-place numpy mutation becomes
explicit state passing, so a function that draws on an image returns the
updated image. -/

/-- A BGR image as a total map from integer pixel coordinates to a colour
triple. -/
def PyImg : Type := ℤ → ℤ → ℕ × ℕ × ℕ

/-- Truncation of a rational towards zero, the behaviour of the Python int()
conversion applied by plot_joints before drawing. -/
def pyInt (q : ℚ) : ℤ :=
  if 0 ≤ q then ⌊q⌋ else ⌈q⌉

/-- Modelled from the documented behaviour of the external cv2.circle with
thickness -1: fill the disc of the given radius around the centre with the
colour.  Clipping at the image border is not modelled: the pixel map is
total. -/
def drawCircle (img : PyImg) (cx cy : ℤ) (r : ℤ) (col : ℕ × ℕ × ℕ) : PyImg :=
  fun x y => if (x - cx) ^ 2 + (y - cy) ^ 2 ≤ r ^ 2 then col else img x y

/-- The inner plot_joints of plot_pose_2d (src/baseline.py lines 98 to 102):
draw a filled circle of radius 2 at the integer part of every joint. -/
def plot_joints (joints : List (ℚ × ℚ)) (img : PyImg) (col : ℕ × ℕ × ℕ) : PyImg :=
  joints.foldl (fun im j => drawCircle im (pyInt j.1) (pyInt j.2) 2 col) img

/-- The function plot_pose_2d of src/baseline.py (lines 97 to 110) restricted
to its effect on the two passed-in images: for each view the ground-truth
joints are drawn in colour (255, 0, 0) and then the predicted joints in
colour (0, 255, 0), directly onto the input image.  The concatenated
visualization it returns is out of scope; the updated images are returned
explicitly because the source mutates them in place. -/
def plot_pose_2d (gt : List (ℚ × ℚ) × List (ℚ × ℚ))
    (pred : List (ℚ × ℚ) × List (ℚ × ℚ)) (imgs : PyImg × PyImg) :
    PyImg × PyImg :=
  (plot_joints pred.1 (plot_joints gt.1 imgs.1 (255, 0, 0)) (0, 255, 0),
   plot_joints pred.2 (plot_joints gt.2 imgs.2 (255, 0, 0)) (0, 255, 0))

/-- A pixel is covered by the radius-2 circle of one of the joints. -/
def coveredBy (joints : List (ℚ × ℚ)) (x y : ℤ) : Prop :=
  ∃ j ∈ joints, (x - pyInt j.1) ^ 2 + (y - pyInt j.2) ^ 2 ≤ 2 ^ 2

instance (joints : List (ℚ × ℚ)) (x y : ℤ) : Decidable (coveredBy joints x y) :=
  List.decidableBEx _ joints

/-! ## Definitions: the BaseLine pipeline (src/baseline.py lines 113 to 176)

The loaded network and the out-of-scope visualization composition
(matplotlib rendering, resizing, stacking) are external collaborators: they
are carried as opaque function fields of the pipeline state.  BaseLine keeps
no other state, which the source mirrors by never assigning to self outside
of the constructor. -/

/-- Everything the tail of BaseLine.estimate hands to the out-of-scope
rendering (plot_pose_3d, cv2 colour conversion, resizing, stacking): the two
drawn-on images, both predictions, both projection operators (the inputs of
the numerical triangulation) and the ground-truth 3D pose. -/
structure RenderInput where
  img_left : PyImg
  img_right : PyImg
  preds_left : List (ℕ × ℕ)
  preds_right : List (ℕ × ℕ)
  PL : Matrix (Fin 3) (Fin 4) ℚ
  PR : Matrix (Fin 3) (Fin 4) ℚ
  pose_3d : List (Fin 3 → ℚ)

/-- The state of a BaseLine object: the heatmap width of the loaded model,
the model itself (image to one flat row-major heatmap per joint) and the
external rendering collaborator. -/
structure BLModel (Out : Type) where
  width : ℕ
  model : PyImg → List (List ℚ)
  render : RenderInput → Out

/-- BaseLine.inference of src/baseline.py (lines 136 to 146): run the model
and decode every per-joint heatmap, with the stride-4 rescaling and the
uint8 cast of the source applied to each decoded location. -/
def inference {Out : Type} (B : BLModel Out) (img : PyImg) : List (ℕ × ℕ) :=
  (B.model img).map (fun flat => inference_post B.width flat)

/-- Decoded integer keypoints as rational joint positions, as consumed by the
plotting. -/
def natJoints (l : List (ℕ × ℕ)) : List (ℚ × ℚ) :=
  l.map (fun p => ((p.1 : ℚ), (p.2 : ℚ)))

/-- BaseLine.estimate of src/baseline.py (lines 148 to 176): project the
ground truth into both views, run inference on both images, draw both joint
sets onto the caller images, build both projection operators and hand
everything to the external rendering.  The returned triple is the rendered
output, the two (mutated) input images, and the BaseLine state after the
call, which the source never writes to. -/
def estimate {Out : Type} (B : BLModel Out) (img_left img_right : PyImg)
    (m : MetaData) : Out × (PyImg × PyImg) × BLModel Out :=
  let gt := project m
  let preds_left := inference B img_left
  let preds_right := inference B img_right
  let plotted := plot_pose_2d gt (natJoints preds_left, natJoints preds_right)
    (img_left, img_right)
  let PL := get_projection_matrix m.cam_left.intrinsics m.cam_left.rotation
    m.cam_left.translation
  let PR := get_projection_matrix m.cam_right.intrinsics m.cam_right.rotation
    m.cam_right.translation
  (B.render ⟨plotted.1, plotted.2, preds_left, preds_right, PL, PR, m.pose_3d⟩,
   plotted, B)

/-- The per-frame driver loop of src/baseline.py (lines 195 to 200): fold
estimate over a list of frames, threading the BaseLine state, and collect
the outputs. -/
def runFrames {Out : Type} (B : BLModel Out) :
    List (PyImg × PyImg × MetaData) → List Out × BLModel Out
  | [] => ([], B)
  | f :: fs =>
    let r := estimate B f.1 f.2.1 f.2.2
    let rest := runFrames r.2.2 fs
    (r.1 :: rest.1, rest.2)

/-! ## Definitions: concrete witness data (the synthetic stereo rig of the
spec, section 8: focal length 1000, principal point (320, 240), the right
camera translated along X, and the test point (0, 0, 2000)) -/

/-- Shared synthetic intrinsics. -/
def Kc : Matrix (Fin 3) (Fin 3) ℚ := !![1000, 0, 320; 0, 1000, 240; 0, 0, 1]

/-- Left synthetic camera at the origin looking down +Z. -/
def camL : Cam := ⟨Kc, 1, ![0, 0, 0]⟩

/-- Right synthetic camera translated 500 mm along X. -/
def camR : Cam := ⟨Kc, 1, ![-500, 0, 0]⟩

/-- Synthetic frame metadata with the single test point (0, 0, 2000). -/
def metaC : MetaData := ⟨camL, camR, [![0, 0, 2000]]⟩

/-- Left synthetic projection operator. -/
def PLc : Matrix (Fin 3) (Fin 4) ℚ := get_projection_matrix Kc 1 ![0, 0, 0]

/-- Right synthetic projection operator. -/
def PRc : Matrix (Fin 3) (Fin 4) ℚ := get_projection_matrix Kc 1 ![-500, 0, 0]

/-- All-black test image. -/
def img0 : PyImg := fun _ _ => (0, 0, 0)

/-! ## Theorems: argmax and heatmap decoding -/

theorem argmax_idx_lt (l : List ℚ) (h : l ≠ []) : (argmax l).1 < l.length := by
  induction l with
  | nil => exact absurd rfl h
  | cons x xs ih =>
    cases xs with
    | nil => simp [argmax]
    | cons y ys =>
      have hy := ih (by simp)
      by_cases hx : x < (argmax (y :: ys)).2
      · simpa [argmax, hx] using Nat.succ_lt_succ hy
      · simp [argmax, hx]

theorem argmax_getD (l : List ℚ) (h : l ≠ []) :
    l.getD (argmax l).1 0 = (argmax l).2 := by
  induction l with
  | nil => exact absurd rfl h
  | cons x xs ih =>
    cases xs with
    | nil => simp [argmax]
    | cons y ys =>
      have hy := ih (by simp)
      by_cases hx : x < (argmax (y :: ys)).2
      · simpa [argmax, hx] using hy
      · simp [argmax, hx]

theorem argmax_is_max (l : List ℚ) (j : ℕ) (hj : j < l.length) :
    l.getD j 0 ≤ (argmax l).2 := by
  induction l generalizing j with
  | nil => simp at hj
  | cons x xs ih =>
    cases xs with
    | nil =>
      cases j with
      | zero => simp [argmax]
      | succ j => simp at hj
    | cons y ys =>
      by_cases hx : x < (argmax (y :: ys)).2
      · cases j with
        | zero => simpa [argmax, hx] using le_of_lt hx
        | succ j =>
          have := ih j (by simpa using Nat.lt_of_succ_lt_succ hj)
          simpa [argmax, hx] using this
      · push_neg at hx
        cases j with
        | zero => simp [argmax, not_lt.mpr hx]
        | succ j =>
          have := ih j (by simpa using Nat.lt_of_succ_lt_succ hj)
          have h2 : (y :: ys).getD j 0 ≤ x := le_trans this hx
          simpa [argmax, not_lt.mpr hx] using h2

theorem argmax_first (l : List ℚ) (j : ℕ) (hj : j < (argmax l).1) :
    l.getD j 0 < (argmax l).2 := by
  induction l generalizing j with
  | nil => simp [argmax] at hj
  | cons x xs ih =>
    cases xs with
    | nil => simp [argmax] at hj
    | cons y ys =>
      by_cases hx : x < (argmax (y :: ys)).2
      · cases j with
        | zero => simp [argmax, hx]
        | succ j =>
          have hj2 : j < (argmax (y :: ys)).1 := by
            have := hj
            simp only [argmax, if_pos hx] at this
            exact Nat.lt_of_succ_lt_succ this
          simpa [argmax, hx] using ih j hj2
      · simp [argmax, hx] at hj

theorem argmax_of_unique_peak (l : List ℚ) (k : ℕ) (hk : k < l.length)
    (huniq : ∀ j < l.length, j ≠ k → l.getD j 0 < l.getD k 0) :
    argmax l = (k, l.getD k 0) := by
  have hne : l ≠ [] := by
    cases l with
    | nil => simp at hk
    | cons a as => simp
  have hidx : (argmax l).1 < l.length := argmax_idx_lt l hne
  have hval : l.getD (argmax l).1 0 = (argmax l).2 := argmax_getD l hne
  have heq : (argmax l).1 = k := by
    by_contra hik
    have h1 : l.getD (argmax l).1 0 < l.getD k 0 := huniq _ hidx hik
    have h2 : l.getD k 0 ≤ (argmax l).2 := argmax_is_max l k hk
    rw [hval] at h1
    exact absurd (lt_of_le_of_lt h2 h1) (lt_irrefl _)
  refine Prod.ext heq ?_
  rw [← hval, heq]

/-- C2 (amended): for a heatmap of width W with a single unambiguous peak at
row r, column c, the decoder returns the heatmap-space location (c, r) and a
confidence exactly equal to the peak value; BaseLine.inference then rescales
by the stride 4 and casts to uint8, so the returned full-image location is
((c * 4) mod 256, (r * 4) mod 256), which equals (c * 4, r * 4) exactly when
both products are below 256. -/
theorem c2_single_peak_decode (W : ℕ) (flat : List ℚ) (r c : ℕ) (hc : c < W)
    (hidx : r * W + c < flat.length)
    (huniq : ∀ j < flat.length, j ≠ r * W + c →
      flat.getD j 0 < flat.getD (r * W + c) 0) :
    get_max_preds W flat = ((c, r), flat.getD (r * W + c) 0) ∧
    inference_post W flat = ((c * 4) % 256, (r * 4) % 256) ∧
    (c * 4 < 256 → r * 4 < 256 → inference_post W flat = (c * 4, r * 4)) := by
  have hW : 0 < W := lt_of_le_of_lt (Nat.zero_le c) hc
  have hmax := argmax_of_unique_peak flat (r * W + c) hidx huniq
  have hfst : (argmax flat).1 = r * W + c := by rw [hmax]
  have hsnd : (argmax flat).2 = flat.getD (r * W + c) 0 := by rw [hmax]
  have hmod : (r * W + c) % W = c := by
    rw [Nat.add_comm, Nat.add_mul_mod_self_right, Nat.mod_eq_of_lt hc]
  have hdiv : (r * W + c) / W = r := by
    rw [Nat.add_comm, Nat.add_mul_div_right c r hW, Nat.div_eq_of_lt hc,
      Nat.zero_add]
  have h1 : get_max_preds W flat = ((c, r), flat.getD (r * W + c) 0) := by
    simp [get_max_preds, hfst, hsnd, hmod, hdiv]
  refine ⟨h1, ?_, ?_⟩
  · simp [inference_post, h1]
  · intro hc4 hr4
    simp [inference_post, h1, Nat.mod_eq_of_lt hc4, Nat.mod_eq_of_lt hr4]

set_option maxRecDepth 4000 in
/-- C2 counterexample: a heatmap of width 66 whose single peak sits at row 0,
column 65.  The claim as stated says the decoded full-image location should
be (65 * 4, 0 * 4) = (260, 0), but the uint8 cast of BaseLine.inference
wraps 260 to 4, so the code returns (4, 0). -/
theorem c2_counterexample :
    inference_post 66 (List.replicate 65 (0 : ℚ) ++ [1]) = (4, 0) ∧
    ((4 : ℕ), (0 : ℕ)) ≠ (65 * 4, 0 * 4) := by
  constructor
  · decide
  · decide

/-- C2 amended-claim witness at a concrete non-wrapping heatmap: width 3,
peak at row 1, column 1, so the full-image location is (4, 4). -/
theorem c2_witness :
    inference_post 3 ([0, 0, 0, 0, 1, 0] : List ℚ) = (1 * 4, 1 * 4) := by
  have h := c2_single_peak_decode 3 [0, 0, 0, 0, 1, 0] 1 1 (by decide) (by decide)
    (by decide)
  simpa using h.2.2 (by norm_num) (by norm_num)

/-- C3: for every nonempty heatmap the decoder returns a full keypoint
prediction: a location together with a confidence that is exactly the peak
probability value (it is attained on the heatmap and bounds every value).
The decoder is a total function into locations and confidences, so a
near-zero confidence is returned as ordinary data, never as an error, and
the returned location does not depend on how small the confidence is. -/
theorem c3_keypoint_prediction (W : ℕ) (flat : List ℚ) (h : flat ≠ []) :
    flat.getD (argmax flat).1 0 = (get_max_preds W flat).2 ∧
    (∀ j < flat.length, flat.getD j 0 ≤ (get_max_preds W flat).2) ∧
    get_max_preds W flat =
      (((argmax flat).1 % W, (argmax flat).1 / W), (argmax flat).2) := by
  refine ⟨argmax_getD flat h, ?_, rfl⟩
  intro j hj
  exact argmax_is_max flat j hj

/-- C3 witness: the all-zero two-cell heatmap, the near-zero confidence
case: the decoder still returns location (0, 0) and confidence 0 as data. -/
theorem c3_witness :
    get_max_preds 2 ([0, 0] : List ℚ) =
      (((argmax ([0, 0] : List ℚ)).1 % 2, (argmax ([0, 0] : List ℚ)).1 / 2),
        (argmax ([0, 0] : List ℚ)).2) :=
  (c3_keypoint_prediction 2 [0, 0] (by decide)).2.2

/-- C7: when two or more cells hold the equal maximum value, the decoder
returns the first occurrence in row-major scan order: the returned value is
the maximum, it is attained at the returned flat index, that index is at
most the index of any maximal cell, and every earlier cell is strictly
smaller.  The decoder is a pure function of the heatmap, so repeated runs
agree. -/
theorem c7_tie_break_first (W : ℕ) (l : List ℚ) (m : ℚ) (j k : ℕ)
    (hjk : j < k) (hk : k < l.length)
    (hj : l.getD j 0 = m) (hkv : l.getD k 0 = m)
    (hmax : ∀ i < l.length, l.getD i 0 ≤ m) :
    (argmax l).2 = m ∧ l.getD (argmax l).1 0 = m ∧ (argmax l).1 ≤ j ∧
    (∀ i < (argmax l).1, l.getD i 0 < m) ∧
    get_max_preds W l = (((argmax l).1 % W, (argmax l).1 / W), m) := by
  have hne : l ≠ [] := by
    cases l with
    | nil => simp at hk
    | cons a as => simp
  have hjlen : j < l.length := lt_trans hjk hk
  have hidx : (argmax l).1 < l.length := argmax_idx_lt l hne
  have hval : l.getD (argmax l).1 0 = (argmax l).2 := argmax_getD l hne
  have hvm : (argmax l).2 = m := by
    refine le_antisymm ?_ ?_
    · rw [← hval]; exact hmax _ hidx
    · rw [← hj]; exact argmax_is_max l j hjlen
  have hle : (argmax l).1 ≤ j := by
    by_contra hlt
    push_neg at hlt
    have := argmax_first l j hlt
    rw [hj, hvm] at this
    exact absurd this (lt_irrefl m)
  refine ⟨hvm, by rw [hval, hvm], hle, ?_, ?_⟩
  · intro i hi
    have := argmax_first l i hi
    rwa [hvm] at this
  · simp [get_max_preds, hvm]

/-- C7 witness: the heatmap row [0, 2, 2] has its maximum 2 at indices 1 and
2; the decoder picks index 1, the first in scan order. -/
theorem c7_witness : (argmax ([0, 2, 2] : List ℚ)).1 ≤ 1 :=
  (c7_tie_break_first 1 [0, 2, 2] 2 1 2 (by decide) (by decide) (by decide)
    (by decide) (by decide)).2.2.1

/-- C9: every keypoint coordinate BaseLine.inference returns is the decoded
heatmap coordinate times the stride 4 reduced mod 256 by the uint8 cast;
hence every returned coordinate lies below 256, and whenever a scaled
coordinate reaches 256 the returned value differs from the true
full-resolution position.  Consequently every coordinate in the list
BaseLine.inference returns is below 256. -/
theorem c9_uint8_wrap {Out : Type} (B : BLModel Out) (img : PyImg)
    (W : ℕ) (flat : List ℚ) :
    inference_post W flat =
      (((get_max_preds W flat).1.1 * 4) % 256,
       ((get_max_preds W flat).1.2 * 4) % 256) ∧
    (inference_post W flat).1 < 256 ∧ (inference_post W flat).2 < 256 ∧
    (256 ≤ (get_max_preds W flat).1.1 * 4 →
      (inference_post W flat).1 ≠ (get_max_preds W flat).1.1 * 4) ∧
    (256 ≤ (get_max_preds W flat).1.2 * 4 →
      (inference_post W flat).2 ≠ (get_max_preds W flat).1.2 * 4) ∧
    (∀ p ∈ inference B img, p.1 < 256 ∧ p.2 < 256) := by
  have h256 : (0 : ℕ) < 256 := by norm_num
  refine ⟨rfl, Nat.mod_lt _ h256, Nat.mod_lt _ h256, ?_, ?_, ?_⟩
  · intro hge
    exact ne_of_lt (lt_of_lt_of_le (Nat.mod_lt _ h256) hge)
  · intro hge
    exact ne_of_lt (lt_of_lt_of_le (Nat.mod_lt _ h256) hge)
  · intro p hp
    simp only [inference, List.mem_map] at hp
    obtain ⟨f, _, hf⟩ := hp
    rw [← hf]
    exact ⟨Nat.mod_lt _ h256, Nat.mod_lt _ h256⟩

/-! ## Theorems: projection and triangulation geometry -/

theorem dlt_mulVec_apply {F : Type} [Field F] (PL PR : Matrix (Fin 3) (Fin 4) F)
    (uL vL uR vR : F) (Y : Fin 4 → F) :
    (dlt PL PR uL vL uR vR).mulVec Y =
      ![uL * PL.mulVec Y 2 - PL.mulVec Y 0,
        vL * PL.mulVec Y 2 - PL.mulVec Y 1,
        uR * PR.mulVec Y 2 - PR.mulVec Y 0,
        vR * PR.mulVec Y 2 - PR.mulVec Y 1] := by
  funext i
  fin_cases i <;>
    simp [dlt, Matrix.mulVec, Matrix.dotProduct, sub_mul, mul_assoc,
      Finset.sum_sub_distrib, Finset.mul_sum]

theorem dlt_null {F : Type} [Field F] (PL PR : Matrix (Fin 3) (Fin 4) F)
    (X : Fin 3 → F) (hwL : PL.mulVec (homog X) 2 ≠ 0)
    (hwR : PR.mulVec (homog X) 2 ≠ 0) :
    (dltOfPoint PL PR X).mulVec (homog X) = 0 := by
  rw [dltOfPoint, dlt_mulVec_apply]
  funext i
  fin_cases i <;>
    simp [projectPt, div_mul_cancel₀, hwL, hwR]

theorem minor3_apply {F : Type} [Field F] (A : Matrix (Fin 4) (Fin 4) F)
    (i j : Fin 3) : minor3 A i j = A i.castSucc j.castSucc := by
  fin_cases i <;> fin_cases j <;> rfl

theorem col3_apply {F : Type} [Field F] (A : Matrix (Fin 4) (Fin 4) F)
    (i : Fin 3) : col3 A i = A i.castSucc (Fin.last 3) := by
  fin_cases i <;> rfl

theorem dlt_sub_system {F : Type} [Field F] (A : Matrix (Fin 4) (Fin 4) F)
    (Y : Fin 4 → F) (hY : A.mulVec Y = 0) :
    (minor3 A).mulVec (fun i => Y i.castSucc) =
      fun i => -(Y (Fin.last 3) * col3 A i) := by
  funext i
  have h := congrFun hY i.castSucc
  simp only [Matrix.mulVec, Matrix.dotProduct, Pi.zero_apply] at h
  rw [Fin.sum_univ_castSucc] at h
  show (Finset.univ.sum fun j => minor3 A i j * Y j.castSucc) = _
  have hrw : (Finset.univ.sum fun j => minor3 A i j * Y j.castSucc) =
      Finset.univ.sum fun j : Fin 3 => A i.castSucc j.castSucc * Y j.castSucc := by
    apply Finset.sum_congr rfl
    intro j _
    rw [minor3_apply]
  rw [hrw, col3_apply]
  linear_combination h

theorem dlt_null_unique {F : Type} [Field F] (A : Matrix (Fin 4) (Fin 4) F)
    (hM : (minor3 A).det ≠ 0) (Y Z : Fin 4 → F)
    (hY : A.mulVec Y = 0) (hZ : A.mulVec Z = 0)
    (hY3 : Y (Fin.last 3) ≠ 0) (hZ3 : Z (Fin.last 3) ≠ 0) :
    dequant Y = dequant Z := by
  have hU : IsUnit (minor3 A).det := isUnit_iff_ne_zero.mpr hM
  have key : ∀ (V : Fin 4 → F), A.mulVec V = 0 → V (Fin.last 3) ≠ 0 →
      dequant V = fun i => -((minor3 A)⁻¹.mulVec (col3 A) i) := by
    intro V hV hV3
    have hsub := dlt_sub_system A V hV
    have hsolve : (fun i => V i.castSucc) =
        (minor3 A)⁻¹.mulVec ((minor3 A).mulVec (fun i => V i.castSucc)) := by
      rw [Matrix.mulVec_mulVec, Matrix.nonsing_inv_mul _ hU, Matrix.one_mulVec]
    rw [hsub] at hsolve
    have hv : (fun i => -(V (Fin.last 3) * col3 A i)) =
        (-(V (Fin.last 3))) • (col3 A) := by
      funext j
      simp [neg_mul]
    rw [hv, Matrix.mulVec_smul] at hsolve
    funext i
    have hi := congrFun hsolve i
    simp only [Pi.smul_apply, smul_eq_mul] at hi
    show V i.castSucc / V (Fin.last 3) = _
    rw [hi, neg_mul, neg_div, mul_div_cancel_left₀ _ hV3]
  rw [key Y hY hY3, key Z hZ hZ3]

/-! ## Theorems: concrete evaluations on the synthetic stereo rig -/

theorem PLc_eq : PLc = !![1000, 0, 320, 0; 0, 1000, 240, 0; 0, 0, 1, 0] := by
  ext i j
  fin_cases i <;> fin_cases j <;>
    simp [PLc, get_projection_matrix, Kc, Matrix.mul_apply, Fin.sum_univ_three,
      Matrix.one_apply, Matrix.vecHead, Matrix.vecTail]

theorem PRc_eq : PRc = !![1000, 0, 320, -500000; 0, 1000, 240, 0; 0, 0, 1, 0] := by
  ext i j
  fin_cases i <;> fin_cases j <;>
    simp [PRc, get_projection_matrix, Kc, Matrix.mul_apply, Fin.sum_univ_three,
      Matrix.one_apply, Matrix.vecHead, Matrix.vecTail] <;> norm_num

theorem mulVecL :
    PLc.mulVec (homog ![0, 0, 2000]) = ![640000, 480000, 2000] := by
  funext i
  rw [PLc_eq]
  fin_cases i <;>
    simp [Matrix.mulVec, Matrix.dotProduct, Fin.sum_univ_four, homog] <;> norm_num

theorem mulVecR :
    PRc.mulVec (homog ![0, 0, 2000]) = ![140000, 480000, 2000] := by
  funext i
  rw [PRc_eq]
  fin_cases i <;>
    simp [Matrix.mulVec, Matrix.dotProduct, Fin.sum_univ_four, homog] <;> norm_num

theorem projL : projectPt PLc ![0, 0, 2000] = (320, 240) := by
  rw [projectPt, mulVecL]
  norm_num

theorem projR : projectPt PRc ![0, 0, 2000] = (70, 240) := by
  rw [projectPt, mulVecR]
  norm_num

theorem dltC_as_dlt :
    dltOfPoint PLc PRc ![0, 0, 2000] = dlt PLc PRc 320 240 70 240 := by
  rw [dltOfPoint, projL, projR]

theorem dltC_eq : dltOfPoint PLc PRc ![0, 0, 2000] =
    !![-1000, 0, 0, 0; 0, -1000, 0, 0; -1000, 0, -250, 500000; 0, -1000, 0, 0] := by
  rw [dltC_as_dlt]
  ext i j
  rw [PLc_eq, PRc_eq]
  fin_cases i <;> fin_cases j <;>
    simp [dlt, Matrix.vecHead, Matrix.vecTail] <;> norm_num

theorem minorC_det :
    (minor3 (dltOfPoint PLc PRc ![0, 0, 2000])).det ≠ 0 := by
  rw [dltC_eq]
  have h : minor3 (!![-1000, 0, 0, 0; 0, -1000, 0, 0; -1000, 0, -250, 500000;
      0, -1000, 0, 0] : Matrix (Fin 4) (Fin 4) ℚ) =
      !![-1000, 0, 0; 0, -1000, 0; -1000, 0, -250] := by
    rw [minor3]
    norm_num
  rw [h, Matrix.det_fin_three]
  norm_num

theorem dltC_null :
    (dltOfPoint PLc PRc ![0, 0, 2000]).mulVec ![0, 0, 2000, 1] = 0 := by
  rw [dltC_eq]
  funext i
  fin_cases i <;>
    simp [Matrix.mulVec, Matrix.dotProduct, Fin.sum_univ_four] <;> norm_num

theorem dltSwap_eq : dlt PRc PLc 70 240 320 240 =
    !![-1000, 0, -250, 500000; 0, -1000, 0, 0; -1000, 0, 0, 0; 0, -1000, 0, 0] := by
  ext i j
  rw [PLc_eq, PRc_eq]
  fin_cases i <;> fin_cases j <;>
    simp [dlt, Matrix.vecHead, Matrix.vecTail] <;> norm_num

/-- C1: projection and triangulation round-trip exactly (the rational model
of the double-precision tolerance statement).  For any pair of projection
operators, any 3D point off both focal planes whose DLT system is
well-conditioned (its leading 3 by 3 block is invertible, so the null space
is one-dimensional), the homogeneous lift of the point solves the DLT system
built from its two projections, and every homogeneous solution of that
system with nonzero last coordinate dequantizes back to the original
point. -/
theorem c1_round_trip (PL PR : Matrix (Fin 3) (Fin 4) ℚ) (X : Fin 3 → ℚ)
    (hwL : PL.mulVec (homog X) 2 ≠ 0) (hwR : PR.mulVec (homog X) 2 ≠ 0)
    (hM : (minor3 (dltOfPoint PL PR X)).det ≠ 0)
    (Y : Fin 4 → ℚ) (hY : (dltOfPoint PL PR X).mulVec Y = 0)
    (hY3 : Y (Fin.last 3) ≠ 0) :
    (dltOfPoint PL PR X).mulVec (homog X) = 0 ∧ dequant Y = X := by
  have hnull := dlt_null PL PR X hwL hwR
  refine ⟨hnull, ?_⟩
  have hlast : homog X (Fin.last 3) ≠ 0 := by
    have h1 : homog X (Fin.last 3) = 1 := rfl
    rw [h1]
    exact one_ne_zero
  have h1 := dlt_null_unique _ hM Y (homog X) hY hnull hY3 hlast
  rw [h1]
  funext i
  show homog X i.castSucc / homog X (Fin.last 3) = X i
  have h4 : homog X (Fin.last 3) = 1 := rfl
  have hc : homog X i.castSucc = X i := by fin_cases i <;> rfl
  rw [h4, hc, div_one]

/-- C1 witness: the synthetic rig of the spec, with the test point
(0, 0, 2000); the homogeneous solution (0, 0, 2000, 1) dequantizes to the
original point. -/
theorem c1_witness : dequant (![0, 0, 2000, 1] : Fin 4 → ℚ) = ![0, 0, 2000] := by
  have h := c1_round_trip PLc PRc ![0, 0, 2000]
    (by rw [mulVecL]; norm_num [Matrix.cons_val_two, Matrix.vecHead, Matrix.vecTail])
    (by rw [mulVecR]; norm_num [Matrix.cons_val_two, Matrix.vecHead, Matrix.vecTail])
    minorC_det ![0, 0, 2000, 1] dltC_null (by norm_num [Fin.last])
  exact h.2

/-- C4: the projection contract.  For every list of 3D points and the
operator P = K * [R | t], project_3d_to_2d produces exactly one 2D point per
3D point, and under the precondition eps <= |w| with eps > 0 the i-th output
is the finite pixel coordinate (x / w, y / w) of the i-th input, where
(x, y, w) = P applied to the homogeneous lift of the point. -/
theorem c4_projection_contract (K R : Matrix (Fin 3) (Fin 3) ℚ) (t : Fin 3 → ℚ)
    (pts : List (Fin 3 → ℚ)) (eps : ℚ) (i : ℕ) (heps : 0 < eps)
    (hi : i < pts.length)
    (hw : eps ≤ |(get_projection_matrix K R t).mulVec
      (homog (pts.getD i (fun _ => 0))) 2|) :
    (project_3d_to_2d pts K R t).length = pts.length ∧
    (get_projection_matrix K R t).mulVec (homog (pts.getD i (fun _ => 0))) 2 ≠ 0 ∧
    (project_3d_to_2d pts K R t).get? i = some
      ((get_projection_matrix K R t).mulVec (homog (pts.getD i (fun _ => 0))) 0 /
        (get_projection_matrix K R t).mulVec (homog (pts.getD i (fun _ => 0))) 2,
       (get_projection_matrix K R t).mulVec (homog (pts.getD i (fun _ => 0))) 1 /
        (get_projection_matrix K R t).mulVec (homog (pts.getD i (fun _ => 0))) 2) := by
  refine ⟨List.length_map _ _, ?_, ?_⟩
  · intro h0
    rw [h0] at hw
    simp only [abs_zero] at hw
    exact absurd (lt_of_lt_of_le heps hw) (lt_irrefl 0)
  · rw [project_3d_to_2d, List.get?_map]
    have hsome : pts.get? i = some (pts.getD i (fun _ => 0)) := by
      rw [List.getD_eq_getElem _ _ hi, List.get?_eq_getElem?,
        List.getElem?_eq_getElem hi]
    rw [hsome]
    rfl

/-- C4 witness: the left synthetic camera and the point (0, 0, 2000), whose
homogeneous depth is 2000, far above the tolerance 1. -/
theorem c4_witness :
    (project_3d_to_2d [![0, 0, 2000]] Kc 1 ![0, 0, 0]).length = 1 ∧
    (get_projection_matrix Kc 1 ![0, 0, 0]).mulVec
      (homog (([![0, 0, 2000]] : List (Fin 3 → ℚ)).getD 0 (fun _ => 0))) 2 ≠ 0 := by
  have h := c4_projection_contract Kc 1 ![0, 0, 0] [![0, 0, 2000]] 1 0
    (by norm_num) (by simp)
    (by
      have hgd : (([![0, 0, 2000]] : List (Fin 3 → ℚ)).getD 0 (fun _ => 0)) =
          ![0, 0, 2000] := rfl
      rw [hgd]
      show (1 : ℚ) ≤ |PLc.mulVec (homog ![0, 0, 2000]) 2|
      rw [mulVecL]
      norm_num [Matrix.cons_val_two, Matrix.vecHead, Matrix.vecTail])
  exact ⟨h.1, h.2.1⟩

/-- C5: triangulation symmetry.  Swapping the two views (projection
operators and keypoints together) permutes the rows of the DLT system, so
the homogeneous solution sets agree: under the same well-conditioning
hypothesis, any homogeneous solution of the swapped system dequantizes to
the same 3D reconstruction as any solution of the original system. -/
theorem c5_swap_symmetry (PL PR : Matrix (Fin 3) (Fin 4) ℚ) (uL vL uR vR : ℚ)
    (YA YB : Fin 4 → ℚ)
    (hM : (minor3 (dlt PL PR uL vL uR vR)).det ≠ 0)
    (hYA : (dlt PL PR uL vL uR vR).mulVec YA = 0)
    (hYB : (dlt PR PL uR vR uL vL).mulVec YB = 0)
    (hA3 : YA (Fin.last 3) ≠ 0) (hB3 : YB (Fin.last 3) ≠ 0) :
    dequant YB = dequant YA := by
  have hBA : (dlt PL PR uL vL uR vR).mulVec YB = 0 := by
    rw [dlt_mulVec_apply] at hYB ⊢
    funext i
    fin_cases i
    · simpa using congrFun hYB 2
    · simpa using congrFun hYB 3
    · simpa using congrFun hYB 0
    · simpa using congrFun hYB 1
  exact dlt_null_unique _ hM YB YA hBA hYA hB3 hA3

/-- C5 witness: on the synthetic rig, a solution (0, 0, 4000, 2) of the
swapped system and the solution (0, 0, 2000, 1) of the original system
dequantize to the same 3D point. -/
theorem c5_witness :
    dequant (![0, 0, 4000, 2] : Fin 4 → ℚ) =
      dequant (![0, 0, 2000, 1] : Fin 4 → ℚ) := by
  refine c5_swap_symmetry PLc PRc 320 240 70 240 ![0, 0, 2000, 1] ![0, 0, 4000, 2]
    ?_ ?_ ?_ ?_ ?_
  · rw [← dltC_as_dlt]
    exact minorC_det
  · rw [← dltC_as_dlt]
    exact dltC_null
  · rw [dltSwap_eq]
    funext i
    fin_cases i <;>
      simp [Matrix.mulVec, Matrix.dotProduct, Fin.sum_univ_four] <;> norm_num
  · norm_num [Fin.last]
  · norm_num [Fin.last]

/-- C6: degenerate-input tolerance of the triangulation.  The solver is the
variational characterisation of the smallest singular vector: minimise the
residual of the DLT system over the unit sphere.  For every pair of
projection operators and every pair of 2D keypoints, including any
degenerate (rank-deficient) configuration, that minimisation problem has a
solution, so the triangulation always returns a numerical least-squares
null-space result and never needs an error path. -/
theorem c6_degenerate_total (PL PR : Matrix (Fin 3) (Fin 4) ℝ)
    (uL vL uR vR : ℝ) :
    ∃ Y : Fin 4 → ℝ, (∑ i, Y i ^ 2) = 1 ∧
      ∀ Z : Fin 4 → ℝ, (∑ i, Z i ^ 2) = 1 →
        (∑ i, ((dlt PL PR uL vL uR vR).mulVec Y i) ^ 2) ≤
        (∑ i, ((dlt PL PR uL vL uR vR).mulVec Z i) ^ 2) := by
  set A := dlt PL PR uL vL uR vR with hA
  set S : Set (Fin 4 → ℝ) := {Y | (∑ i, Y i ^ 2) = 1} with hSdef
  have hcont : Continuous fun Y : Fin 4 → ℝ => ∑ i, Y i ^ 2 := by
    apply continuous_finset_sum
    intro i _
    exact (continuous_apply i).pow 2
  have hobj : Continuous fun Y : Fin 4 → ℝ => ∑ i, (A.mulVec Y i) ^ 2 := by
    apply continuous_finset_sum
    intro i _
    have hc : Continuous fun Y : Fin 4 → ℝ => A.mulVec Y i := by
      simp only [Matrix.mulVec, Matrix.dotProduct]
      apply continuous_finset_sum
      intro j _
      exact continuous_const.mul (continuous_apply j)
    exact hc.pow 2
  have hclosed : IsClosed S := isClosed_eq hcont continuous_const
  have hsub : S ⊆ Metric.closedBall 0 1 := by
    intro Y hY
    rw [Metric.mem_closedBall]
    rw [dist_pi_le_iff zero_le_one]
    intro i
    rw [Real.dist_eq]
    have h1 : Y i ^ 2 ≤ 1 := by
      have hle : Y i ^ 2 ≤ ∑ j, Y j ^ 2 :=
        Finset.single_le_sum (fun j _ => sq_nonneg (Y j)) (Finset.mem_univ i)
      rw [hSdef] at hY
      exact le_of_le_of_eq hle hY
    have h2 : |Y i| ≤ 1 := (sq_le_one_iff_abs_le_one (Y i)).mp h1
    simpa using h2
  have hbdd : Bornology.IsBounded S :=
    (Metric.isBounded_closedBall).subset hsub
  have hcompact : IsCompact S := Metric.isCompact_of_isClosed_isBounded hclosed hbdd
  have hne : S.Nonempty := by
    refine ⟨![1, 0, 0, 0], ?_⟩
    rw [hSdef]
    show (∑ i : Fin 4, (![(1 : ℝ), 0, 0, 0]) i ^ 2) = 1
    rw [Fin.sum_univ_four]
    norm_num
  obtain ⟨Y, hYS, hmin⟩ := hcompact.exists_isMinOn hne hobj.continuousOn
  exact ⟨Y, hYS, fun Z hZ => hmin hZ⟩

/-! ## Theorems: plotting and the estimate pipeline -/

theorem plot_joints_apply (joints : List (ℚ × ℚ)) (img : PyImg)
    (col : ℕ × ℕ × ℕ) (x y : ℤ) :
    plot_joints joints img col x y =
      if coveredBy joints x y then col else img x y := by
  induction joints generalizing img with
  | nil => simp [plot_joints, coveredBy]
  | cons j js ih =>
    have hstep : plot_joints (j :: js) img col =
        plot_joints js (drawCircle img (pyInt j.1) (pyInt j.2) 2 col) col := rfl
    rw [hstep, ih]
    by_cases h2 : (x - pyInt j.1) ^ 2 + (y - pyInt j.2) ^ 2 ≤ 2 ^ 2
    · by_cases h1 : coveredBy js x y
      · rw [if_pos h1,
          if_pos (show coveredBy (j :: js) x y from ⟨j, List.mem_cons_self j js, h2⟩)]
      · rw [if_neg h1,
          if_pos (show coveredBy (j :: js) x y from ⟨j, List.mem_cons_self j js, h2⟩)]
        show (if (x - pyInt j.1) ^ 2 + (y - pyInt j.2) ^ 2 ≤ 2 ^ 2
          then col else img x y) = col
        rw [if_pos h2]
    · by_cases h1 : coveredBy js x y
      · obtain ⟨w, hw, hc⟩ := h1
        rw [if_pos (show coveredBy js x y from ⟨w, hw, hc⟩),
          if_pos (show coveredBy (j :: js) x y from ⟨w, List.mem_cons_of_mem j hw, hc⟩)]
      · have hno : ¬ coveredBy (j :: js) x y := by
          rintro ⟨w, hw, hc⟩
          rcases List.mem_cons.mp hw with hw1 | hw2
          · rw [hw1] at hc
            exact h2 hc
          · exact h1 ⟨w, hw2, hc⟩
        rw [if_neg h1, if_neg hno]
        show (if (x - pyInt j.1) ^ 2 + (y - pyInt j.2) ^ 2 ≤ 2 ^ 2
          then col else img x y) = img x y
        rw [if_neg h2]

theorem projectC : project metaC = ([((320 : ℚ), (240 : ℚ))], [((70 : ℚ), (240 : ℚ))]) := by
  show ([projectPt PLc ![0, 0, 2000]], [projectPt PRc ![0, 0, 2000]]) = _
  rw [projL, projR]

/-- C8: statelessness of the per-frame reconstruction.  Folding estimate
over any list of frames leaves the BaseLine state untouched, and the output
of every frame is the same pure function of the state and that frame alone:
the run over a frame list is exactly the per-frame map, so the result for a
frame does not depend on which or how many frames were processed before
it. -/
theorem c8_stateless {Out : Type} (B : BLModel Out)
    (frames : List (PyImg × PyImg × MetaData)) :
    runFrames B frames =
      (frames.map (fun f => (estimate B f.1 f.2.1 f.2.2).1), B) := by
  induction frames with
  | nil => rfl
  | cons f fs ih =>
    show ((estimate B f.1 f.2.1 f.2.2).1 ::
        (runFrames (estimate B f.1 f.2.1 f.2.2).2.2 fs).1,
        (runFrames (estimate B f.1 f.2.1 f.2.2).2.2 fs).2) = _
    have hB : (estimate B f.1 f.2.1 f.2.2).2.2 = B := rfl
    rw [hB, ih]
    simp [List.map]

/-- C10: BaseLine.estimate does not leave the caller images unchanged:
plot_pose_2d draws the ground-truth and predicted joint circles directly
onto the passed-in images.  On the synthetic frame the ground-truth joint
projects to pixel (320, 240) of the left image, so after estimate that pixel
holds a drawn colour, (255, 0, 0) or (0, 255, 0), never the original
(0, 0, 0), whatever the model predicts. -/
theorem c10_estimate_mutates {Out : Type} (B : BLModel Out) :
    (estimate B img0 img0 metaC).2.1.1 320 240 ≠ img0 320 240 ∧
    (estimate B img0 img0 metaC).2.1.1 ≠ img0 := by
  have hplot : (estimate B img0 img0 metaC).2.1.1 =
      plot_joints (natJoints (inference B img0))
        (plot_joints (project metaC).1 img0 (255, 0, 0)) (0, 255, 0) := rfl
  have hgt : (project metaC).1 = [((320 : ℚ), (240 : ℚ))] := by rw [projectC]
  have hint : pyInt (320 : ℚ) = 320 ∧ pyInt (240 : ℚ) = 240 := by
    constructor <;> norm_num [pyInt]
  have hinner :
      plot_joints [((320 : ℚ), (240 : ℚ))] img0 (255, 0, 0) 320 240 = (255, 0, 0) := by
    rw [plot_joints_apply, if_pos]
    exact ⟨(320, 240), List.mem_singleton_self _, by rw [hint.1, hint.2]; norm_num⟩
  have hne : (estimate B img0 img0 metaC).2.1.1 320 240 ≠ (0, 0, 0) := by
    rw [hplot, hgt, plot_joints_apply]
    by_cases hcov : coveredBy (natJoints (inference B img0)) 320 240
    · rw [if_pos hcov]
      decide
    · rw [if_neg hcov, hinner]
      decide
  constructor
  · exact hne
  · intro heq
    apply hne
    rw [heq]
    rfl

end Baseline
